import Mathlib

/-!
Verification development for the concurrent content-enrichment pipeline of
`src/src/post_processor.py`.  The Python source is shallowly embedded:

* a parsed URL (Python's `urllib.parse.urlparse` result) is the structure `Url`;
* the global `ImageCache` (its backing dict, its in-flight registry) is the
  structure `ImageCache`, an association list plus a membership list; the
  mutex is not modelled since the embedding is sequential state passing;
* the image converter `download_and_convert_image` is modelled twice: once in
  detail (stage oracle `ImageEnv`, temp-file accounting) for the resource
  claims, and once abstractly inside the pipeline as a conversion oracle
  `conv : Url → Nat → Option String` that yields the outcome of the n-th
  invocation for a given URL (the invocation log of the run is kept in
  `World.log` so that double conversions are observable);
* the two model-calling collaborators are oracles `vlmO llmO : Nat → Option
  String`, indexed by post id (`None` models a failed or exception-raising
  call; an empty string models a "successful" call with falsy content);
* the `save_post_interpretation` sink is modelled as the list of
  `InterpRecord` values a run emits.

Python string truthiness tests (`if post_text`, `if interpretation`) are
embedded with `strIsEmpty`; `str.lower` is embedded for the ASCII range,
which covers the extension comparisons the source performs.
-/

/-- ASCII lower-casing of one character (the fragment of Python `str.lower`
exercised by the source, which only lower-cases URL paths). -/
def lowerChar (c : Char) : Char :=
  if 'A' ≤ c ∧ c ≤ 'Z' then Char.ofNat (c.toNat + 32) else c

/-- ASCII `str.lower`. -/
def strLower (s : String) : String := ⟨s.data.map lowerChar⟩

/-- Python `str.endswith`. -/
def strEndsWith (s t : String) : Bool := t.data.isSuffixOf s.data

/-- Python falsiness of a string (`not s` / `if s`). -/
def strIsEmpty (s : String) : Bool := s.data.isEmpty

/-- Result of `urllib.parse.urlparse`: the five components the source reads.
The source manipulates URLs through this parse (and re-serialises with
`urlunparse`), so the embedding works with the parsed form directly. -/
structure Url where
  scheme : String
  netloc : String
  path : String
  query : String
  fragment : String
deriving DecidableEq

/-- Association-list lookup (Python `dict` read). -/
def alistLookup {κ ν : Type} [DecidableEq κ] : List (κ × ν) → κ → Option ν
  | [], _ => none
  | (k, v) :: rest, i => if k = i then some v else alistLookup rest i

/-- Association-list write (Python `dict` assignment: replace or append). -/
def alistInsert {κ ν : Type} [DecidableEq κ] : List (κ × ν) → κ → ν → List (κ × ν)
  | [], i, w => [(i, w)]
  | (k, v) :: rest, i, w =>
    if k = i then (k, w) :: rest else (k, v) :: alistInsert rest i w

/-- Number of occurrences of a URL in an invocation log. -/
def urlCount : List Url → Url → Nat
  | [], _ => 0
  | v :: rest, u => (if v = u then 1 else 0) + urlCount rest u

/-- `normalize_image_url` (post_processor.py:89): keep scheme, netloc and
path, drop query and fragment. -/
def normalize_image_url (u : Url) : Url :=
  ⟨u.scheme, u.netloc, u.path, "", ""⟩

/-- The extension whitelist of `is_valid_image_url` (post_processor.py:136). -/
def validExtensions : List String :=
  [".jpg", ".jpeg", ".png", ".gif", ".webp", ".bmp", ".svg"]

/-- `is_valid_image_url` (post_processor.py:111): HTTP(S) scheme, non-empty
host, and either a recognised image extension or a non-trivial path. -/
def is_valid_image_url (u : Url) : Bool :=
  ((u.scheme = "http" ∨ u.scheme = "https") &&
    !strIsEmpty u.netloc) &&
  (validExtensions.any (fun e => strEndsWith (strLower u.path) e) ||
    (!strIsEmpty u.path && !(u.path = "/")))

/-- `is_standard_format` (post_processor.py:435): the closed standard set
PNG/JPG/JPEG, decided by the lower-cased path's extension. -/
def is_standard_format (u : Url) : Bool :=
  [".png", ".jpg", ".jpeg"].any (fun e => strEndsWith (strLower u.path) e)

/-- The HEIC test of `download_and_convert_image` (post_processor.py:368):
`url.lower().endswith('.heic'/'.heif')`.  Pipeline URLs are normalized, so
the serialised URL ends with its path. -/
def is_heic_url (u : Url) : Bool :=
  strEndsWith (strLower u.path) ".heic" || strEndsWith (strLower u.path) ".heif"

/-- The shared `ImageCache` state (post_processor.py:39): the result dict
`_cache` maps a URL to `some base64` (ready) or `none` (recorded failure);
`_processing` is the in-flight registry (only key membership matters for the
control flow, the stored `Future` handles are not modelled). -/
structure ImageCache where
  cache : List (Url × Option String)
  processing : List Url
deriving DecidableEq

/-- `ImageCache.get_cached_image` (post_processor.py:47): `dict.get` returns
`None` both for an absent key and for a stored failure marker — the two are
flattened into one `none`. -/
def ImageCache.get_cached_image (c : ImageCache) (u : Url) : Option String :=
  match alistLookup c.cache u with
  | some v => v
  | none => none

/-- `ImageCache.is_processing` (post_processor.py:52). -/
def ImageCache.is_processing (c : ImageCache) (u : Url) : Bool :=
  decide (u ∈ c.processing)

/-- `ImageCache.start_processing` (post_processor.py:57): register the URL as
in flight. -/
def ImageCache.start_processing (c : ImageCache) (u : Url) : ImageCache :=
  { c with processing := if u ∈ c.processing then c.processing else u :: c.processing }

/-- `ImageCache.finish_processing` (post_processor.py:62): store the outcome
(`none` records a failure) and deregister the in-flight claim. -/
def ImageCache.finish_processing (c : ImageCache) (u : Url) (result : Option String) :
    ImageCache :=
  { c with
    cache := alistInsert c.cache u result
    processing := c.processing.filter (fun v => decide (v ≠ u)) }

/-- `ImageCache.wait_for_processing` (post_processor.py:69): poll the cache
until the URL appears, the in-flight claim vanishes, or the timeout elapses
(`fuel` counts the remaining polls).  The embedding is sequential, so the
loop observes one fixed snapshot; the returned cache makes it explicit that
the waiter performs no write. -/
def ImageCache.wait_for_processing (c : ImageCache) (u : Url) :
    Nat → Option String × ImageCache
  | 0 => (none, c)
  | fuel + 1 =>
    match alistLookup c.cache u with
    | some v => (v, c)
    | none =>
      if u ∈ c.processing then ImageCache.wait_for_processing c u fuel
      else (none, c)

/-- The 30 s / 0.1 s poll budget of `wait_for_processing`. -/
def waitFuel : Nat := 300

/-- Pipeline-visible state of one run: the shared cache plus the log of
`download_and_convert_image` invocations (most recent first), which makes
conversion-count properties stateable. -/
structure World where
  cache : ImageCache
  log : List Url
deriving DecidableEq

def emptyWorld : World := ⟨⟨[], []⟩, []⟩

/-- `download_and_convert_image_async` (post_processor.py:265): serve from
the cache when a payload is recorded, join an in-flight claim, otherwise run
the conversion inline and record its outcome.  `conv u n` is the outcome of
the n-th conversion of `u` in this run. -/
def download_and_convert_image_async (conv : Url → Nat → Option String)
    (w : World) (u : Url) : Option String × World :=
  match w.cache.get_cached_image u with
  | some cached => (some cached, w)
  | none =>
    if w.cache.is_processing u then
      ((w.cache.wait_for_processing u waitFuel).1, w)
    else
      let r := conv u (urlCount w.log u)
      (r, ⟨w.cache.finish_processing u r, u :: w.log⟩)

/-- One iteration of the submission loop of
`start_background_image_processing` (post_processor.py:305): skip URLs that
are in flight or already resolved, otherwise claim the URL, convert, and
store the outcome (the completion callback).  The sequential embedding runs
the submitted task to completion at once. -/
def background_process_one (conv : Url → Nat → Option String)
    (w : World) (u : Url) : World :=
  if w.cache.is_processing u || (w.cache.get_cached_image u).isSome then w
  else
    let c₁ := w.cache.start_processing u
    let r := conv u (urlCount w.log u)
    ⟨c₁.finish_processing u r, u :: w.log⟩

/-- `start_background_image_processing` (post_processor.py:289) over the
deduplicated non-standard URL list of the batch. -/
def start_background_image_processing (conv : Url → Nat → Option String) :
    World → List Url → World
  | w, [] => w
  | w, u :: rest =>
    start_background_image_processing conv (background_process_one conv w u) rest

/-- The payload handed to the vision model: a direct URL reference for a
standard-format image, or a converted base64 blob. -/
inductive ImgPayload
  | urlRef (u : Url)
  | blob (b : String)
deriving DecidableEq

/-- The `mixed_image_data` construction for one delayed post
(post_processor.py:846): standard URLs keep a URL payload, non-standard URLs
are resolved through `download_and_convert_image_async`, failures are
skipped. -/
def build_mixed_image_data (conv : Url → Nat → Option String)
    (w : World) : List Url → List ImgPayload × World
  | [] => ([], w)
  | u :: rest =>
    if is_standard_format u then
      let (l, w') := build_mixed_image_data conv w rest
      (ImgPayload.urlRef u :: l, w')
    else
      match download_and_convert_image_async conv w u with
      | (some b, w₁) =>
        let (l, w₂) := build_mixed_image_data conv w₁ rest
        (ImgPayload.blob b :: l, w₂)
      | (none, w₁) => build_mixed_image_data conv w₁ rest

/-- Instrumented variant of `build_mixed_image_data` that also records, per
URL, the payload it contributed (`none` when the image ended failed and was
skipped).  Used to state dispatch properties of the delayed path. -/
def build_mixed_image_data_log (conv : Url → Nat → Option String)
    (w : World) : List Url → List (Url × Option ImgPayload) × World
  | [] => ([], w)
  | u :: rest =>
    if is_standard_format u then
      let (l, w') := build_mixed_image_data_log conv w rest
      ((u, some (ImgPayload.urlRef u)) :: l, w')
    else
      match download_and_convert_image_async conv w u with
      | (some b, w₁) =>
        let (l, w₂) := build_mixed_image_data_log conv w₁ rest
        ((u, some (ImgPayload.blob b)) :: l, w₂)
      | (none, w₁) =>
        let (l, w₂) := build_mixed_image_data_log conv w₁ rest
        ((u, none) :: l, w₂)

/-- Outcome of the download stage of `download_and_convert_image`
(post_processor.py:346): a requests exception before the temp file exists
(`netError`, lines 415-420 for `requests.get`/`raise_for_status`), the
content-length ceiling early return (`tooLarge`, line 353), a transport
failure while streaming the body into the already-created temp file
(`bodyError`, raised inside lines 362-364), or success. -/
inductive DownloadOutcome
  | netError
  | tooLarge
  | bodyError
  | ok
deriving DecidableEq

/-- Exceptions that the stages of `download_and_convert_image` can raise and
that the function is claimed to never propagate. -/
inductive ConvErr
  | network
  | decode
deriving DecidableEq

/-- Oracle for one execution of `download_and_convert_image`: availability of
the optional libraries, the outcome of each fallible stage, and the base64
payload produced on full success. -/
structure ImageEnv where
  pilAvailable : Bool
  heifAvailable : Bool
  download : DownloadOutcome
  openOk : Bool
  saveOk : Bool
  encoded : String
deriving DecidableEq

/-- The `finally` block of `download_and_convert_image`
(post_processor.py:424): delete the download temp file (id 0) and the
converted temp file (id 1) when they still exist. -/
def finallyCleanup (live : List Nat) : List Nat :=
  (live.filter (fun n => decide (n ≠ 0))).filter (fun n => decide (n ≠ 1))

/-- `download_and_convert_image` (post_processor.py:330).  The result pairs
the returned value with the list of temp files still existing after the
function exits.  The try bodies are modelled with `Except`: a stage failure
is an exception value, and the single terminal `match` is the except clauses
(lines 408-423) turning every exception into `none`; `Except.ok none` models
the early plain returns (missing PIL, oversized payload, HEIC without
pillow-heif).  Temp file 0 is created at line 358, temp file 1 at line 392;
the success path deletes both at lines 402-403 before returning. -/
def download_and_convert_image (env : ImageEnv) (u : Url) : Option String × List Nat :=
  if !env.pilAvailable then (none, [])
  else
    let body : Except ConvErr (Option String) × List Nat :=
      match env.download with
      | DownloadOutcome.netError => (Except.error ConvErr.network, [])
      | DownloadOutcome.tooLarge => (Except.ok none, [])
      | DownloadOutcome.bodyError => (Except.error ConvErr.network, [0])
      | DownloadOutcome.ok =>
        if is_heic_url u && !env.heifAvailable then (Except.ok none, [0])
        else if !env.openOk then (Except.error ConvErr.decode, [0])
        else if !env.saveOk then (Except.error ConvErr.decode, [0, 1])
        else (Except.ok (some env.encoded), [])
    (match body.1 with
     | Except.ok v => v
     | Except.error _ => none,
     finallyCleanup body.2)

/-- One raw post as the pipeline reads it: `id`, the effective text
(`post.get('summary','') or post.get('title','')`), and the image URLs the
markdown pattern `!\[..\]\((https?://..)\)` extracts from that text
(post_processor.py:710).  The regex itself is pure string scanning over the
post text, so its output list is taken as the post datum. -/
structure Post where
  id : Nat
  text : String
  rawUrls : List Url
deriving DecidableEq

/-- `extract_image_urls_from_markdown` after the regex
(post_processor.py:572): normalize every extracted URL and keep the
format-valid ones.  (The Python truthiness guard on the normalized URL is
subsumed: the regex only yields `http(s)://` URLs, whose serialisation is
non-empty.) -/
def extract_image_urls (p : Post) : List Url :=
  (p.rawUrls.map normalize_image_url).filter is_valid_image_url

/-- The step-1 classification test (post_processor.py:713): a post goes to
the VLM side when the markdown pattern matched and at least one URL survived
format validation. -/
def isVlmPost (p : Post) : Bool :=
  !p.rawUrls.isEmpty && !(extract_image_urls p).isEmpty

def vlm_posts (posts : List Post) : List Post := posts.filter isVlmPost

def llm_posts (posts : List Post) : List Post :=
  posts.filter (fun p => !isVlmPost p)

/-- One step-1 iteration's effect on `post_image_mapping`
(post_processor.py:719): VLM posts write their format-valid URLs under their
id, dict-style. -/
def mapping_step (m : List (Nat × List Url)) (p : Post) : List (Nat × List Url) :=
  if isVlmPost p then alistInsert m p.id (extract_image_urls p) else m

/-- `post_image_mapping` (post_processor.py:719): post id to its
format-valid URLs, written dict-style left to right. -/
def post_image_mapping (posts : List Post) : List (Nat × List Url) :=
  posts.foldl mapping_step []

/-- The URLs the orchestrator reads back for a post
(`post_image_mapping[post['id']]`, post_processor.py:744 and 845). -/
def mapped_urls (posts : List Post) (i : Nat) : List Url :=
  (alistLookup (post_image_mapping posts) i).getD []

/-- The `has_non_standard` flag of the step-2 loop (post_processor.py:747). -/
def has_non_standard (urls : List Url) : Bool :=
  urls.any (fun u => !is_standard_format u)

/-- VLM posts whose mapped URLs are all standard: processed immediately
(post_processor.py:755). -/
def immediate_vlm_posts (posts : List Post) : List Post :=
  (vlm_posts posts).filter (fun p => !has_non_standard (mapped_urls posts p.id))

/-- VLM posts with at least one non-standard mapped URL: delayed
(post_processor.py:758). -/
def delayed_posts (posts : List Post) : List Post :=
  (vlm_posts posts).filter (fun p => has_non_standard (mapped_urls posts p.id))

/-- `immediate_posts` (post_processor.py:737-761): immediately processable
VLM posts followed by every text-only post. -/
def immediate_posts (posts : List Post) : List Post :=
  immediate_vlm_posts posts ++ llm_posts posts

/-- `non_standard_urls` after deduplication (post_processor.py:747-764): the
non-standard mapped URLs of all VLM posts, as a set. -/
def non_standard_urls (posts : List Post) : List Url :=
  ((vlm_posts posts).flatMap
    (fun p => (mapped_urls posts p.id).filter (fun u => !is_standard_format u))).dedup

/-- Model names the processor reads from configuration
(post_processor.py:653-654). -/
structure Models where
  fastModel : String
  vlmModel : String
deriving DecidableEq

inductive InterpStatus
  | success
  | failed
deriving DecidableEq

/-- One row written through `db_manager.save_post_interpretation`. -/
structure InterpRecord where
  postId : Nat
  content : String
  modelName : String
  status : InterpStatus
deriving DecidableEq

/-- `_process_llm_post` (post_processor.py:1083): skip (no record) on empty
text, save a success record when the model returns truthy content, and
otherwise return failure without writing any record. -/
def process_llm_post (M : Models) (llmO : Nat → Option String) (p : Post) :
    Bool × List InterpRecord :=
  if strIsEmpty p.text then (false, [])
  else
    match llmO p.id with
    | some s =>
      if strIsEmpty s then (false, [])
      else (true, [⟨p.id, s, M.fastModel, InterpStatus.success⟩])
    | none => (false, [])

/-- The fallback tail of `_process_vlm_post` (post_processor.py:951-973): on
VLM failure retry with the text model; on fallback success save a downgraded
success record, otherwise save the terminal both-failed record. -/
def vlm_fallback_step (M : Models) (llmO : Nat → Option String) (p : Post) :
    Bool × List InterpRecord :=
  match llmO p.id with
  | some fb =>
    if strIsEmpty fb then
      (false, [⟨p.id, "VLM和LLM处理均失败", "failed", InterpStatus.failed⟩])
    else
      (true, [⟨p.id, "[降级处理] " ++ fb, M.fastModel, InterpStatus.success⟩])
  | none => (false, [⟨p.id, "VLM和LLM处理均失败", "failed", InterpStatus.failed⟩])

/-- `_process_vlm_post` (post_processor.py:910): skip on empty text, degrade
to `_process_llm_post` when no image data was supplied, save a success record
on VLM success, and otherwise run the fallback tail.  The model-call oracles
are total, so the defensive `except` arm at line 975 is unreachable in the
embedding. -/
def process_vlm_post (M : Models) (vlmO llmO : Nat → Option String) (p : Post)
    (imgs : List ImgPayload) : Bool × List InterpRecord :=
  if strIsEmpty p.text then (false, [])
  else if imgs.isEmpty then process_llm_post M llmO p
  else
    match vlmO p.id with
    | some s =>
      if strIsEmpty s then vlm_fallback_step M llmO p
      else (true, [⟨p.id, s, M.vlmModel, InterpStatus.success⟩])
    | none => vlm_fallback_step M llmO p

/-- The immediate VLM submissions (post_processor.py:795-809): for each
immediate post that is a VLM post, build URL payloads from its standard
mapped URLs and submit only when that list is non-empty. -/
def immediate_vlm_tasks (posts : List Post) : List (Post × List ImgPayload) :=
  ((immediate_posts posts).filter (fun p => decide (p ∈ vlm_posts posts))).filterMap
    (fun p =>
      let imgs := ((mapped_urls posts p.id).filter is_standard_format).map ImgPayload.urlRef
      if imgs.isEmpty then none else some (p, imgs))

/-- The immediate LLM submissions (post_processor.py:788, 812). -/
def immediate_llm_list (posts : List Post) : List Post :=
  (immediate_posts posts).filter (fun p => decide (p ∈ llm_posts posts))

/-- The immediate phase (post_processor.py:776-832): run every submitted
task, count one success or one failure per task, and collect the emitted
interpretation records.  Completion order only permutes the counters, so the
embedding keeps submission order. -/
def run_immediate (M : Models) (vlmO llmO : Nat → Option String)
    (posts : List Post) : Nat × Nat × List InterpRecord :=
  let vres := (immediate_vlm_tasks posts).map
    (fun t => process_vlm_post M vlmO llmO t.1 t.2)
  let lres := (immediate_llm_list posts).map (fun p => process_llm_post M llmO p)
  let ires := vres ++ lres
  (ires.countP (fun r => r.1), ires.countP (fun r => !r.1),
    ires.flatMap (fun r => r.2))

/-- Aggregate of the delayed phase. -/
structure DelayedResult where
  success : Nat
  failed : Nat
  records : List InterpRecord
  dispatches : List (Post × List ImgPayload)
  world : World

/-- The delayed phase (post_processor.py:834-892): for each delayed post,
resolve its mapped URLs into `mixed_image_data`, dispatch to the vision path
when at least one payload survived and to the text path otherwise, and count
one outcome per post.  `dispatches` records each post with the image data it
observed. -/
def run_delayed_posts (M : Models) (conv : Url → Nat → Option String)
    (vlmO llmO : Nat → Option String) (mapping : List (Nat × List Url)) :
    World → List Post → DelayedResult
  | w, [] => ⟨0, 0, [], [], w⟩
  | w, p :: rest =>
    let urls := (alistLookup mapping p.id).getD []
    let step := build_mixed_image_data conv w urls
    let outcome :=
      if step.1.isEmpty then process_llm_post M llmO p
      else process_vlm_post M vlmO llmO p step.1
    let r := run_delayed_posts M conv vlmO llmO mapping step.2 rest
    ⟨(if outcome.1 then 1 else 0) + r.success,
      (if outcome.1 then 0 else 1) + r.failed,
      outcome.2 ++ r.records,
      (p, step.1) :: r.dispatches,
      r.world⟩

/-- The statistics and observable effects of one
`process_unprocessed_posts` run. -/
structure RunResult where
  total : Nat
  success : Nat
  failed : Nat
  records : List InterpRecord
  dispatches : List (Post × List ImgPayload)
  world : World

/-- `PostProcessor.process_unprocessed_posts` (post_processor.py:667):
classify the batch, start background conversion for the deduplicated
non-standard URLs, run the immediate phase, then — when there are delayed
posts and a background pool was started — the delayed phase, and aggregate
the counters.  The embedding serialises the run in the order the orchestrator
thread drives it (background completions first, then the delayed loop). -/
def process_unprocessed_posts (M : Models) (conv : Url → Nat → Option String)
    (vlmO llmO : Nat → Option String) (posts : List Post) : RunResult :=
  if posts.isEmpty then ⟨0, 0, 0, [], [], emptyWorld⟩
  else
    let nsUrls := non_standard_urls posts
    let w₀ := if nsUrls.isEmpty then emptyWorld
      else start_background_image_processing conv emptyWorld nsUrls
    let imm := run_immediate M vlmO llmO posts
    let delayed := delayed_posts posts
    let dres :=
      if !delayed.isEmpty && !nsUrls.isEmpty then
        run_delayed_posts M conv vlmO llmO (post_image_mapping posts) w₀ delayed
      else ⟨0, 0, [], [], w₀⟩
    ⟨posts.length, imm.1 + dres.success, imm.2.1 + dres.failed,
      imm.2.2 ++ dres.records, dres.dispatches, dres.world⟩

/-! Concrete fixtures used by witnesses and counterexamples. -/

def uJpg : Url := ⟨"https", "img.example.com", "/a.jpg", "", ""⟩

def uWebp : Url := ⟨"https", "img.example.com", "/b.webp", "", ""⟩

def M0 : Models := ⟨"fast-llm", "fast-vlm"⟩

def convNone : Url → Nat → Option String := fun _ _ => none

def convB : Url → Nat → Option String := fun _ _ => some "B64"

def oracleNone : Nat → Option String := fun _ => none

def oracleHello : Nat → Option String := fun _ => some "interpretation"

/-! Association-list lemmas. -/

theorem alistLookup_insert_self {κ ν : Type} [DecidableEq κ]
    (m : List (κ × ν)) (k : κ) (v : ν) :
    alistLookup (alistInsert m k v) k = some v := by
  induction m with
  | nil => simp [alistInsert, alistLookup]
  | cons h t ih =>
    obtain ⟨k', v'⟩ := h
    by_cases hk : k' = k <;> simp [alistInsert, alistLookup, hk, ih]

theorem alistLookup_insert_ne {κ ν : Type} [DecidableEq κ]
    (m : List (κ × ν)) (k i : κ) (v : ν) (h : i ≠ k) :
    alistLookup (alistInsert m k v) i = alistLookup m i := by
  have hki : ¬ (k = i) := fun hh => h hh.symm
  induction m with
  | nil => simp [alistInsert, alistLookup, hki]
  | cons hd t ih =>
    obtain ⟨k', v'⟩ := hd
    by_cases hk : k' = k
    · subst hk
      simp [alistInsert, alistLookup, hki]
    · simp [alistInsert, alistLookup, hk, ih]

/-- C9: a waiter that exhausts its timeout in `wait_for_processing` gets
`None` back and the shared cache state it leaves behind is exactly the one it
found: neither the result dict nor the in-flight registry is written, so the
original claimant's eventual outcome stays observable unchanged. -/
theorem c9_wait_timeout_frame (c : ImageCache) (u : Url) (fuel : Nat) :
    (c.wait_for_processing u fuel).2 = c ∧
    (alistLookup c.cache u = none → u ∈ c.processing →
      (c.wait_for_processing u fuel).1 = none) := by
  induction fuel with
  | zero => exact ⟨rfl, fun _ _ => rfl⟩
  | succ n ih =>
    constructor
    · simp only [ImageCache.wait_for_processing]
      cases h : alistLookup c.cache u with
      | some v => rfl
      | none =>
        by_cases hp : u ∈ c.processing
        · simpa [hp] using ih.1
        · simp [hp]
    · intro h1 h2
      simp only [ImageCache.wait_for_processing, h1]
      simpa [h2] using ih.2 h1 h2

theorem c9_wait_timeout_frame_witness :
    alistLookup (ImageCache.mk [] [uWebp]).cache uWebp = none ∧
    uWebp ∈ (ImageCache.mk [] [uWebp]).processing ∧
    ((ImageCache.mk [] [uWebp]).wait_for_processing uWebp waitFuel).2 =
      ImageCache.mk [] [uWebp] ∧
    ((ImageCache.mk [] [uWebp]).wait_for_processing uWebp waitFuel).1 = none :=
  ⟨rfl, by decide,
    (c9_wait_timeout_frame (ImageCache.mk [] [uWebp]) uWebp waitFuel).1,
    (c9_wait_timeout_frame (ImageCache.mk [] [uWebp]) uWebp waitFuel).2 rfl (by decide)⟩

/-- C10: `get_cached_image` answers `none` both for a URL that was never
processed and for a URL whose conversion was recorded as failed by
`finish_processing`; the read interface cannot tell the two apart. -/
theorem c10_get_cached_conflates (c : ImageCache) (u : Url) :
    (alistLookup c.cache u = none → c.get_cached_image u = none) ∧
    (c.finish_processing u none).get_cached_image u = none := by
  constructor
  · intro h
    simp [ImageCache.get_cached_image, h]
  · simp [ImageCache.get_cached_image, ImageCache.finish_processing,
      alistLookup_insert_self]

theorem c10_get_cached_conflates_witness :
    alistLookup (ImageCache.mk [] []).cache uWebp = none ∧
    (ImageCache.mk [] []).get_cached_image uWebp = none ∧
    ((ImageCache.mk [] []).finish_processing uWebp none).get_cached_image uWebp = none :=
  ⟨rfl, (c10_get_cached_conflates (ImageCache.mk [] []) uWebp).1 rfl,
    (c10_get_cached_conflates (ImageCache.mk [] []) uWebp).2⟩

/-- C8: `download_and_convert_image` never lets a stage exception escape —
every oracle outcome yields a plain value, `none` whenever any download,
decode or re-encode stage fails — and the temp files it created are gone on
every exit path. -/
theorem c8_converter_total_cleanup (env : ImageEnv) (u : Url) :
    (download_and_convert_image env u).2 = [] ∧
    (env.pilAvailable = false ∨ env.download ≠ DownloadOutcome.ok ∨
      (is_heic_url u = true ∧ env.heifAvailable = false) ∨
      env.openOk = false ∨ env.saveOk = false →
      (download_and_convert_image env u).1 = none) ∧
    (env.pilAvailable = true → env.download = DownloadOutcome.ok →
      (is_heic_url u = true → env.heifAvailable = true) →
      env.openOk = true → env.saveOk = true →
      (download_and_convert_image env u).1 = some env.encoded) := by
  obtain ⟨pil, heif, dl, op, sv, enc⟩ := env
  cases hic : is_heic_url u <;> cases pil <;> cases dl <;> cases heif <;>
    cases op <;> cases sv <;>
    simp [download_and_convert_image, finallyCleanup, hic]

theorem c8_converter_total_cleanup_witness :
    (download_and_convert_image ⟨true, true, DownloadOutcome.ok, false, true, "X"⟩ uWebp).2 = [] ∧
    (download_and_convert_image ⟨true, true, DownloadOutcome.ok, false, true, "X"⟩ uWebp).1 = none :=
  ⟨(c8_converter_total_cleanup ⟨true, true, DownloadOutcome.ok, false, true, "X"⟩ uWebp).1,
    (c8_converter_total_cleanup ⟨true, true, DownloadOutcome.ok, false, true, "X"⟩ uWebp).2.1
      (Or.inr (Or.inr (Or.inr (Or.inl rfl))))⟩

/-- C2 (counterexample): a text-only post with empty text ends the run
counted as failed while zero interpretation records were written — the pools
consider the post finished with no outcome record, contradicting the claim
that every post gets a Success or Failed record. -/
theorem c2_counterexample :
    (process_unprocessed_posts M0 convNone oracleNone oracleNone
      [⟨1, "", []⟩]).failed = 1 ∧
    (process_unprocessed_posts M0 convNone oracleNone oracleNone
      [⟨1, "", []⟩]).records = [] := by
  constructor <;> rfl

/-- C2 (amended): a post processed on the vision path with non-empty text
and non-empty image data always finishes with at least one record, but the
text path writes a record exactly when the call succeeds — a text-only post
whose model call fails, or whose text is empty, finishes with zero records. -/
theorem c2_outcome_records (M : Models) (vlmO llmO : Nat → Option String)
    (p : Post) (imgs : List ImgPayload) :
    (strIsEmpty p.text = false → imgs ≠ [] →
      (process_vlm_post M vlmO llmO p imgs).2 ≠ []) ∧
    ((process_llm_post M llmO p).2 = [] ↔ (process_llm_post M llmO p).1 = false) := by
  constructor
  · intro ht hi
    have hi' : imgs.isEmpty = false := by
      cases imgs with
      | nil => exact absurd rfl hi
      | cons a l => rfl
    simp only [process_vlm_post, ht, hi', Bool.false_eq_true, if_false]
    cases hv : vlmO p.id with
    | some s =>
      cases hs : strIsEmpty s with
      | false => simp [hs]
      | true =>
        simp only [hs, if_true, vlm_fallback_step]
        cases hl : llmO p.id with
        | some fb => cases hfb : strIsEmpty fb <;> simp [hfb]
        | none => simp
    | none =>
      simp only [vlm_fallback_step]
      cases hl : llmO p.id with
      | some fb => cases hfb : strIsEmpty fb <;> simp [hfb]
      | none => simp
  · simp only [process_llm_post]
    cases ht : strIsEmpty p.text
    · cases hl : llmO p.id with
      | some s => cases hs : strIsEmpty s <;> simp [hs]
      | none => simp
    · simp

theorem c2_outcome_records_witness :
    strIsEmpty (Post.mk 1 "hello" []).text = false ∧
    ([ImgPayload.urlRef uJpg] : List ImgPayload) ≠ [] ∧
    (process_vlm_post M0 oracleNone oracleNone ⟨1, "hello", []⟩
      [ImgPayload.urlRef uJpg]).2 ≠ [] :=
  ⟨rfl, by decide,
    (c2_outcome_records M0 oracleNone oracleNone ⟨1, "hello", []⟩
      [ImgPayload.urlRef uJpg]).1 rfl (by decide)⟩

/-- C5 (counterexample): a vision-path post with non-empty text but no
available image data whose text fallback also fails ends in terminal failure
with zero records — no Failed record distinguishing the "no image data"
case is ever written. -/
theorem c5_counterexample :
    process_vlm_post M0 oracleNone oracleNone ⟨1, "hello", []⟩ [] = (false, []) := by
  rfl

/-- C5 (amended): when a vision-path post with image data fails the vision
call and the text fallback, the single Failed record carries the fixed
both-failed reason; a vision-path post without image data is handled exactly
like a text-only post, so its terminal failure writes no record at all and
no distinguishing Failed record exists for that case. -/
theorem c5_failure_record_shape (M : Models) (vlmO llmO : Nat → Option String)
    (p : Post) (imgs : List ImgPayload) :
    (strIsEmpty p.text = false → imgs ≠ [] → vlmO p.id = none → llmO p.id = none →
      (process_vlm_post M vlmO llmO p imgs).2 =
        [⟨p.id, "VLM和LLM处理均失败", "failed", InterpStatus.failed⟩]) ∧
    process_vlm_post M vlmO llmO p [] = process_llm_post M llmO p := by
  constructor
  · intro ht hi hv hl
    have hi' : imgs.isEmpty = false := by
      cases imgs with
      | nil => exact absurd rfl hi
      | cons a l => rfl
    simp [process_vlm_post, ht, hi', hv, vlm_fallback_step, hl]
  · cases ht : strIsEmpty p.text <;>
      simp [process_vlm_post, process_llm_post, ht]

theorem c5_failure_record_shape_witness :
    strIsEmpty (Post.mk 1 "hello" []).text = false ∧
    oracleNone 1 = none ∧
    (process_vlm_post M0 oracleNone oracleNone ⟨1, "hello", []⟩
      [ImgPayload.urlRef uJpg]).2 =
      [⟨1, "VLM和LLM处理均失败", "failed", InterpStatus.failed⟩] :=
  ⟨rfl, rfl,
    (c5_failure_record_shape M0 oracleNone oracleNone ⟨1, "hello", []⟩
      [ImgPayload.urlRef uJpg]).1 rfl (by decide) rfl rfl⟩

/-- C3 (counterexample): a cache entry in the terminal Failed state is not
stable — `download_and_convert_image_async` re-enters conversion for that
URL (the invocation log grows) and `finish_processing` replaces the recorded
failure with a fresh payload. -/
theorem c3_counterexample :
    urlCount (download_and_convert_image_async convB
      ⟨⟨[(uWebp, none)], []⟩, []⟩ uWebp).2.log uWebp = 1 ∧
    alistLookup (download_and_convert_image_async convB
      ⟨⟨[(uWebp, none)], []⟩, []⟩ uWebp).2.cache.cache uWebp = some (some "B64") ∧
    (download_and_convert_image_async convB
      ⟨⟨[(uWebp, none)], []⟩, []⟩ uWebp).1 = some "B64" := by
  refine ⟨rfl, rfl, rfl⟩

/-- C3 (amended): only the Ready state is terminal.  A URL whose cache entry
holds a payload is never re-entered: `download_and_convert_image_async`
returns the payload without touching the state, and the background
submission loop skips it.  A Failed entry, being indistinguishable from an
absent one through `get_cached_image`, is re-converted and its recorded
outcome can be replaced. -/
theorem c3_ready_terminal (conv : Url → Nat → Option String) (w : World)
    (u : Url) (p : String) (h : alistLookup w.cache.cache u = some (some p)) :
    download_and_convert_image_async conv w u = (some p, w) ∧
    background_process_one conv w u = w := by
  have hg : w.cache.get_cached_image u = some p := by
    simp [ImageCache.get_cached_image, h]
  constructor
  · simp [download_and_convert_image_async, hg]
  · simp [background_process_one, hg]

theorem c3_ready_terminal_witness :
    alistLookup (World.mk ⟨[(uWebp, some "B64")], []⟩ []).cache.cache uWebp =
      some (some "B64") ∧
    download_and_convert_image_async convNone
      (World.mk ⟨[(uWebp, some "B64")], []⟩ []) uWebp =
      (some "B64", World.mk ⟨[(uWebp, some "B64")], []⟩ []) ∧
    background_process_one convNone
      (World.mk ⟨[(uWebp, some "B64")], []⟩ []) uWebp =
      World.mk ⟨[(uWebp, some "B64")], []⟩ [] :=
  ⟨rfl,
    (c3_ready_terminal convNone (World.mk ⟨[(uWebp, some "B64")], []⟩ [])
      uWebp "B64" rfl).1,
    (c3_ready_terminal convNone (World.mk ⟨[(uWebp, some "B64")], []⟩ [])
      uWebp "B64" rfl).2⟩

/-- Joint specification of `build_mixed_image_data` and its instrumented
variant: the log covers the URL list in order, the mixed data is exactly the
surviving payloads, both share the final world, standard URLs always
contribute a URL payload, and the mixed data is empty exactly when every URL
ended failed. -/
theorem mixed_log_spec (conv : Url → Nat → Option String) :
    ∀ (urls : List Url) (w : World),
      ((build_mixed_image_data_log conv w urls).1.map Prod.fst = urls) ∧
      ((build_mixed_image_data conv w urls).1 =
        (build_mixed_image_data_log conv w urls).1.filterMap Prod.snd) ∧
      ((build_mixed_image_data conv w urls).2 =
        (build_mixed_image_data_log conv w urls).2) ∧
      (∀ pr ∈ (build_mixed_image_data_log conv w urls).1,
        is_standard_format pr.1 = true → pr.2 = some (ImgPayload.urlRef pr.1)) ∧
      ((build_mixed_image_data conv w urls).1 = [] ↔
        ∀ pr ∈ (build_mixed_image_data_log conv w urls).1, pr.2 = none) := by
  intro urls
  induction urls with
  | nil =>
    intro w
    exact ⟨rfl, rfl, rfl, by simp [build_mixed_image_data_log],
      by simp [build_mixed_image_data, build_mixed_image_data_log]⟩
  | cons u rest ih =>
    intro w
    by_cases hs : is_standard_format u = true
    · obtain ⟨h1, h2, h3, h4, h5⟩ := ih w
      cases hrecL : build_mixed_image_data_log conv w rest with
      | mk L wL =>
        cases hrecB : build_mixed_image_data conv w rest with
        | mk B wB =>
          simp only [hrecL, hrecB] at h1 h2 h3 h4 h5
          simp only [build_mixed_image_data, build_mixed_image_data_log, hs,
            if_true, hrecL, hrecB]
          refine ⟨by simpa using h1, by simpa using h2, h3, ?_, by simp⟩
          intro pr hpr hstd
          rcases List.mem_cons.mp hpr with hh | hh
          · subst hh; rfl
          · exact h4 pr hh hstd
    · rw [Bool.not_eq_true] at hs
      cases hdl : download_and_convert_image_async conv w u with
      | mk r w₁ =>
        obtain ⟨h1, h2, h3, h4, h5⟩ := ih w₁
        cases hrecL : build_mixed_image_data_log conv w₁ rest with
        | mk L wL =>
          cases hrecB : build_mixed_image_data conv w₁ rest with
          | mk B wB =>
            simp only [hrecL, hrecB] at h1 h2 h3 h4 h5
            cases r with
            | some b =>
              simp only [build_mixed_image_data, build_mixed_image_data_log,
                hs, Bool.false_eq_true, if_false, hdl, hrecL, hrecB]
              refine ⟨by simpa using h1, by simpa using h2, h3, ?_, by simp⟩
              intro pr hpr hstd
              rcases List.mem_cons.mp hpr with hh | hh
              · subst hh; exact absurd hstd (by simp [hs])
              · exact h4 pr hh hstd
            | none =>
              simp only [build_mixed_image_data, build_mixed_image_data_log,
                hs, Bool.false_eq_true, if_false, hdl, hrecL, hrecB]
              refine ⟨by simpa using h1, by simpa using h2, h3, ?_, by simpa using h5⟩
              intro pr hpr hstd
              rcases List.mem_cons.mp hpr with hh | hh
              · subst hh; exact absurd hstd (by simp [hs])
              · exact h4 pr hh hstd

/-- C7: for a delayed post, the `mixed_image_data` it is dispatched with
contains one payload per resolved image (URL references for standard-format
images, blobs for successful conversions), and it is empty — which is
exactly the condition on which `run_delayed_posts` redirects the post to the
text pool instead of the vision pool — if and only if every one of the
post's images ended failed. -/
theorem c7_delayed_dispatch (conv : Url → Nat → Option String) (w : World)
    (urls : List Url) :
    ((build_mixed_image_data_log conv w urls).1.map Prod.fst = urls) ∧
    ((build_mixed_image_data conv w urls).1 =
      (build_mixed_image_data_log conv w urls).1.filterMap Prod.snd) ∧
    (∀ pr ∈ (build_mixed_image_data_log conv w urls).1,
      is_standard_format pr.1 = true → pr.2 = some (ImgPayload.urlRef pr.1)) ∧
    ((build_mixed_image_data conv w urls).1 = [] ↔
      ∀ pr ∈ (build_mixed_image_data_log conv w urls).1, pr.2 = none) :=
  ⟨(mixed_log_spec conv urls w).1, (mixed_log_spec conv urls w).2.1,
    (mixed_log_spec conv urls w).2.2.2.1, (mixed_log_spec conv urls w).2.2.2.2⟩

theorem c7_delayed_dispatch_witness :
    ((build_mixed_image_data_log convNone emptyWorld [uJpg, uWebp]).1.map
      Prod.fst = [uJpg, uWebp]) ∧
    (uJpg, some (ImgPayload.urlRef uJpg)).2 = some (ImgPayload.urlRef uJpg) ∧
    (build_mixed_image_data convNone emptyWorld [uWebp]).1 = [] :=
  ⟨(c7_delayed_dispatch convNone emptyWorld [uJpg, uWebp]).1,
    (c7_delayed_dispatch convNone emptyWorld [uJpg, uWebp]).2.2.1
      (uJpg, some (ImgPayload.urlRef uJpg)) (by decide) (by decide),
    (c7_delayed_dispatch convNone emptyWorld [uWebp]).2.2.2.mpr (by decide)⟩

theorem alistLookup_insert {κ ν : Type} [DecidableEq κ]
    (m : List (κ × ν)) (k i : κ) (v : ν) :
    alistLookup (alistInsert m k v) i = if i = k then some v else alistLookup m i := by
  by_cases h : i = k
  · subst h; simp [alistLookup_insert_self]
  · simp [h, alistLookup_insert_ne m k i v h]

theorem isVlmPost_iff (p : Post) :
    isVlmPost p = true ↔ extract_image_urls p ≠ [] := by
  constructor
  · intro h
    simp only [isVlmPost, Bool.and_eq_true, Bool.not_eq_true'] at h
    exact fun hh => by simp [hh] at h
  · intro h
    have hraw : p.rawUrls ≠ [] := by
      intro hr
      exact h (by simp [extract_image_urls, hr])
    simp only [isVlmPost, Bool.and_eq_true, Bool.not_eq_true']
    exact ⟨by simpa using hraw, by simpa using h⟩

theorem mapping_fold_isSome :
    ∀ (l : List Post) (acc : List (Nat × List Url)) (k : Nat),
      (alistLookup acc k).isSome = true →
      (alistLookup (l.foldl mapping_step acc) k).isSome = true := by
  intro l
  induction l with
  | nil => intro acc k h; exact h
  | cons q rest ih =>
    intro acc k h
    refine ih (mapping_step acc q) k ?_
    simp only [mapping_step]
    by_cases hq : isVlmPost q = true
    · simp only [hq, if_true, alistLookup_insert]
      by_cases hk : k = q.id <;> simp [hk, h]
    · simpa [hq] using h

theorem mapping_fold_present :
    ∀ (l : List Post) (acc : List (Nat × List Url)) (p : Post),
      p ∈ l → isVlmPost p = true →
      (alistLookup (l.foldl mapping_step acc) p.id).isSome = true := by
  intro l
  induction l with
  | nil => intro acc p hp; exact absurd hp (List.not_mem_nil p)
  | cons q rest ih =>
    intro acc p hp hv
    rcases List.mem_cons.mp hp with hh | hh
    · subst hh
      refine mapping_fold_isSome rest (mapping_step acc p) p.id ?_
      simp [mapping_step, hv, alistLookup_insert_self]
    · exact ih (mapping_step acc q) p hh hv

theorem mapping_fold_nonempty :
    ∀ (l : List Post) (acc : List (Nat × List Url)),
      (∀ k v, alistLookup acc k = some v → v ≠ []) →
      ∀ k v, alistLookup (l.foldl mapping_step acc) k = some v → v ≠ [] := by
  intro l
  induction l with
  | nil => intro acc hacc; exact hacc
  | cons q rest ih =>
    intro acc hacc
    refine ih (mapping_step acc q) ?_
    intro k v hkv
    simp only [mapping_step] at hkv
    by_cases hq : isVlmPost q = true
    · rw [if_pos hq, alistLookup_insert] at hkv
      by_cases hk : k = q.id
      · rw [if_pos hk] at hkv
        cases hkv
        exact (isVlmPost_iff q).mp hq
      · rw [if_neg hk] at hkv
        exact hacc k v hkv
    · rw [if_neg hq] at hkv
      exact hacc k v hkv

theorem mapping_fold_skip :
    ∀ (l : List Post) (acc : List (Nat × List Url)) (i : Nat),
      (∀ q ∈ l, isVlmPost q = true → q.id ≠ i) →
      alistLookup (l.foldl mapping_step acc) i = alistLookup acc i := by
  intro l
  induction l with
  | nil => intro acc i _; rfl
  | cons q rest ih =>
    intro acc i hno
    have hrest := ih (mapping_step acc q) i
      (fun r hr hvr => hno r (List.mem_cons_of_mem q hr) hvr)
    rw [List.foldl_cons] at *
    rw [hrest]
    simp only [mapping_step]
    by_cases hq : isVlmPost q = true
    · have hne : i ≠ q.id := fun hh =>
        hno q (List.mem_cons_self q rest) hq hh.symm
      simp [hq, alistLookup_insert, hne]
    · simp [hq]

theorem mapping_fold_lookup :
    ∀ (l : List Post) (acc : List (Nat × List Url)) (p : Post),
      (l.map Post.id).Nodup → p ∈ l → isVlmPost p = true →
      alistLookup (l.foldl mapping_step acc) p.id = some (extract_image_urls p) := by
  intro l
  induction l with
  | nil => intro acc p _ hp; exact absurd hp (List.not_mem_nil p)
  | cons q rest ih =>
    intro acc p hnd hp hv
    have hnd' : q.id ∉ rest.map Post.id ∧ (rest.map Post.id).Nodup := by
      rw [List.map_cons, List.nodup_cons] at hnd
      exact hnd
    rcases List.mem_cons.mp hp with hh | hh
    · subst hh
      rw [List.foldl_cons]
      rw [mapping_fold_skip rest (mapping_step acc p) p.id ?hno]
      · simp [mapping_step, hv, alistLookup_insert_self]
      · intro r hr _ hrid
        exact hnd'.1 (hrid ▸ List.mem_map_of_mem Post.id hr)
    · rw [List.foldl_cons]
      exact ih (mapping_step acc q) p hnd'.2 hh hv

theorem mapped_urls_eq (posts : List Post) (p : Post)
    (hids : (posts.map Post.id).Nodup) (hp : p ∈ posts)
    (hv : isVlmPost p = true) :
    mapped_urls posts p.id = extract_image_urls p := by
  simp [mapped_urls, post_image_mapping,
    mapping_fold_lookup posts [] p hids hp hv]

theorem mapped_urls_ne_nil (posts : List Post) (p : Post)
    (hp : p ∈ posts) (hv : isVlmPost p = true) :
    mapped_urls posts p.id ≠ [] := by
  have hsome := mapping_fold_present posts [] p hp hv
  obtain ⟨v, hvv⟩ := Option.isSome_iff_exists.mp hsome
  have hnon := mapping_fold_nonempty posts []
    (fun k v h => by simp [alistLookup] at h) p.id v hvv
  simp [mapped_urls, post_image_mapping, hvv, hnon]

theorem countP_total {α : Type} (l : List α) (p : α → Bool) :
    List.countP p l + List.countP (fun a => !(p a)) l = l.length := by
  induction l with
  | nil => rfl
  | cons a t ih =>
    by_cases h : p a = true <;> simp [List.countP_cons, h] <;> omega

theorem length_filter_total {α : Type} (l : List α) (p : α → Bool) :
    (l.filter p).length + (l.filter (fun a => !(p a))).length = l.length := by
  induction l with
  | nil => rfl
  | cons a t ih =>
    by_cases h : p a = true <;> simp [List.filter_cons, h] <;> omega

theorem length_filterMap_of_isSome {α β : Type} (f : α → Option β) :
    ∀ l : List α, (∀ x ∈ l, (f x).isSome = true) →
      (l.filterMap f).length = l.length := by
  intro l
  induction l with
  | nil => intro _; rfl
  | cons a t ih =>
    intro h
    obtain ⟨b, hb⟩ := Option.isSome_iff_exists.mp (h a (List.mem_cons_self a t))
    simp [List.filterMap_cons, hb,
      ih (fun x hx => h x (List.mem_cons_of_mem a hx))]

theorem filter_immediate_vlm (posts : List Post) :
    (immediate_posts posts).filter (fun p => decide (p ∈ vlm_posts posts)) =
      immediate_vlm_posts posts := by
  simp only [immediate_posts, List.filter_append]
  have h1 : (immediate_vlm_posts posts).filter
      (fun p => decide (p ∈ vlm_posts posts)) = immediate_vlm_posts posts := by
    refine List.filter_eq_self.mpr ?_
    intro x hx
    simpa using List.mem_of_mem_filter hx
  have h2 : (llm_posts posts).filter
      (fun p => decide (p ∈ vlm_posts posts)) = [] := by
    refine List.filter_eq_nil_iff.mpr ?_
    intro x hx hmem
    have hnv : isVlmPost x = false := by
      simpa [Bool.not_eq_true'] using (List.mem_filter.mp hx).2
    have hv : isVlmPost x = true :=
      (List.mem_filter.mp (by simpa using hmem : x ∈ vlm_posts posts)).2
    simp [hnv] at hv
  rw [h1, h2, List.append_nil]

theorem immediate_llm_eq (posts : List Post) :
    immediate_llm_list posts = llm_posts posts := by
  simp only [immediate_llm_list, immediate_posts, List.filter_append]
  have h1 : (immediate_vlm_posts posts).filter
      (fun p => decide (p ∈ llm_posts posts)) = [] := by
    refine List.filter_eq_nil_iff.mpr ?_
    intro x hx hmem
    have hv : isVlmPost x = true :=
      (List.mem_filter.mp (List.mem_of_mem_filter hx)).2
    have hnv : isVlmPost x = false := by
      simpa [Bool.not_eq_true'] using
        (List.mem_filter.mp (by simpa using hmem : x ∈ llm_posts posts)).2
    simp [hnv] at hv
  have h2 : (llm_posts posts).filter
      (fun p => decide (p ∈ llm_posts posts)) = llm_posts posts :=
    List.filter_eq_self.mpr (fun x hx => by simpa using hx)
  rw [h1, h2, List.nil_append]

theorem mem_immediate_vlm (posts : List Post) (p : Post)
    (hp : p ∈ immediate_vlm_posts posts) :
    p ∈ posts ∧ isVlmPost p = true ∧
      has_non_standard (mapped_urls posts p.id) = false := by
  have h1 := List.mem_filter.mp hp
  have h2 := List.mem_filter.mp h1.1
  exact ⟨h2.1, h2.2, by simpa [Bool.not_eq_true'] using h1.2⟩

theorem all_standard_of_not_hns (urls : List Url)
    (h : has_non_standard urls = false) :
    ∀ u ∈ urls, is_standard_format u = true := by
  intro u hu
  simp only [has_non_standard, List.any_eq_false] at h
  simpa [Bool.not_eq_true'] using h u hu

theorem tasks_length (posts : List Post) :
    (immediate_vlm_tasks posts).length = (immediate_vlm_posts posts).length := by
  rw [immediate_vlm_tasks, filter_immediate_vlm]
  refine length_filterMap_of_isSome _ _ ?_
  intro x hx
  obtain ⟨hxp, hxv, hns⟩ := mem_immediate_vlm posts x hx
  have hne := mapped_urls_ne_nil posts x hxp hxv
  have hfs : (mapped_urls posts x.id).filter is_standard_format =
      mapped_urls posts x.id :=
    List.filter_eq_self.mpr (fun u hu => all_standard_of_not_hns _ hns u hu)
  have hmapne : ((mapped_urls posts x.id).map ImgPayload.urlRef).isEmpty = false := by
    cases hmm : mapped_urls posts x.id with
    | nil => exact absurd hmm hne
    | cons a t => simp
  simp [hfs, hmapne]

theorem run_immediate_counts (M : Models) (vlmO llmO : Nat → Option String)
    (posts : List Post) :
    (run_immediate M vlmO llmO posts).1 + (run_immediate M vlmO llmO posts).2.1 =
      (immediate_vlm_tasks posts).length + (immediate_llm_list posts).length := by
  simp only [run_immediate]
  have h := countP_total
    ((immediate_vlm_tasks posts).map (fun t => process_vlm_post M vlmO llmO t.1 t.2) ++
      (immediate_llm_list posts).map (fun p => process_llm_post M llmO p))
    (fun r => r.1)
  simpa using h

theorem run_delayed_counts (M : Models) (conv : Url → Nat → Option String)
    (vlmO llmO : Nat → Option String) (mapping : List (Nat × List Url)) :
    ∀ (l : List Post) (w : World),
      (run_delayed_posts M conv vlmO llmO mapping w l).success +
        (run_delayed_posts M conv vlmO llmO mapping w l).failed = l.length := by
  intro l
  induction l with
  | nil => intro w; rfl
  | cons p rest ih =>
    intro w
    rcases hstep : build_mixed_image_data conv w ((alistLookup mapping p.id).getD [])
      with ⟨mixed, w₁⟩
    have hr := ih w₁
    simp only [run_delayed_posts, hstep, List.length_cons]
    cases hb : (if mixed.isEmpty = true then process_llm_post M llmO p
        else process_vlm_post M vlmO llmO p mixed).1 <;>
      simp [hb] <;> omega

theorem posts_split_len (posts : List Post) :
    (vlm_posts posts).length + (llm_posts posts).length = posts.length := by
  simpa [vlm_posts, llm_posts] using length_filter_total posts isVlmPost

theorem vlm_split_len (posts : List Post) :
    (immediate_vlm_posts posts).length + (delayed_posts posts).length =
      (vlm_posts posts).length := by
  simpa [immediate_vlm_posts, delayed_posts, Bool.not_not] using
    length_filter_total (vlm_posts posts)
      (fun p => !has_non_standard (mapped_urls posts p.id))

theorem delayed_nonempty_ns (posts : List Post)
    (h : delayed_posts posts ≠ []) : non_standard_urls posts ≠ [] := by
  obtain ⟨p, hp⟩ := List.exists_mem_of_ne_nil _ h
  have h1 := List.mem_filter.mp hp
  obtain ⟨u, hu, hustd⟩ :
      ∃ x ∈ mapped_urls posts p.id, is_standard_format x = false := by
    simpa [has_non_standard, Bool.not_eq_true'] using h1.2
  have humem : u ∈ non_standard_urls posts := by
    simp only [non_standard_urls]
    rw [List.mem_dedup]
    exact List.mem_flatMap.mpr ⟨p, h1.1, List.mem_filter.mpr ⟨hu, by simp [hustd]⟩⟩
  exact List.ne_nil_of_mem humem

/-- C4: over any non-empty batch the run statistics partition the batch —
every fetched post is counted exactly once, as a success or as a failure,
and the reported total is the batch size. -/
theorem c4_stats_partition (M : Models) (conv : Url → Nat → Option String)
    (vlmO llmO : Nat → Option String) (posts : List Post) (hne : posts ≠ []) :
    (process_unprocessed_posts M conv vlmO llmO posts).success +
      (process_unprocessed_posts M conv vlmO llmO posts).failed =
      (process_unprocessed_posts M conv vlmO llmO posts).total ∧
    (process_unprocessed_posts M conv vlmO llmO posts).total = posts.length := by
  have hne' : posts.isEmpty = false := by
    cases posts with
    | nil => exact absurd rfl hne
    | cons a t => rfl
  have himm := run_immediate_counts M vlmO llmO posts
  have htot : (immediate_vlm_tasks posts).length +
      (immediate_llm_list posts).length + (delayed_posts posts).length =
      posts.length := by
    rw [tasks_length, immediate_llm_eq]
    have h1 := vlm_split_len posts
    have h2 := posts_split_len posts
    omega
  refine ⟨?_, by simp [process_unprocessed_posts, hne']⟩
  simp only [process_unprocessed_posts, hne', Bool.false_eq_true, if_false]
  by_cases hd : (delayed_posts posts).isEmpty = true
  · have hdl : (delayed_posts posts).length = 0 := by
      cases hq : delayed_posts posts with
      | nil => rfl
      | cons a t => rw [hq] at hd; simp at hd
    simp only [hd, Bool.not_true, Bool.false_and, Bool.false_eq_true, if_false]
    omega
  · have hd' : (delayed_posts posts).isEmpty = false := by
      simpa [Bool.not_eq_true] using hd
    have hdelne : delayed_posts posts ≠ [] := by
      cases hq : delayed_posts posts with
      | nil => rw [hq] at hd'; simp at hd'
      | cons a t => simp
    have hns : (non_standard_urls posts).isEmpty = false := by
      cases hq : non_standard_urls posts with
      | nil => exact absurd hq (delayed_nonempty_ns posts hdelne)
      | cons a t => rfl
    simp only [hd', hns, Bool.not_false, Bool.true_and, if_true,
      Bool.false_eq_true, if_false]
    have hrd := run_delayed_counts M conv vlmO llmO (post_image_mapping posts)
      (delayed_posts posts)
      (start_background_image_processing conv emptyWorld (non_standard_urls posts))
    omega

theorem c4_stats_partition_witness :
    ([(⟨1, "t", []⟩ : Post)] ≠ ([] : List Post)) ∧
    (process_unprocessed_posts M0 convNone oracleNone oracleNone
      [⟨1, "t", []⟩]).success +
      (process_unprocessed_posts M0 convNone oracleNone oracleNone
        [⟨1, "t", []⟩]).failed =
      (process_unprocessed_posts M0 convNone oracleNone oracleNone
        [⟨1, "t", []⟩]).total :=
  ⟨by decide,
    (c4_stats_partition M0 convNone oracleNone oracleNone
      [⟨1, "t", []⟩] (by decide)).1⟩

/-- C6: classification assigns each post of the batch to exactly one bucket,
characterised by its screened image references — text-only when screening
leaves nothing, image-ready (with URL payloads submitted immediately) when
the surviving references all have a standard extension, and image-pending
(delayed) when at least one surviving reference is non-standard. -/
theorem c6_classification (posts : List Post) (p : Post)
    (hids : (posts.map Post.id).Nodup) (hp : p ∈ posts) :
    (p ∈ llm_posts posts ↔ extract_image_urls p = []) ∧
    (p ∈ immediate_vlm_posts posts ↔ extract_image_urls p ≠ [] ∧
      ∀ u ∈ extract_image_urls p, is_standard_format u = true) ∧
    (p ∈ delayed_posts posts ↔
      ∃ u ∈ extract_image_urls p, is_standard_format u = false) ∧
    (p ∈ immediate_vlm_posts posts →
      (p, (extract_image_urls p).map ImgPayload.urlRef) ∈ immediate_vlm_tasks posts) := by
  refine ⟨?_, ?_, ?_, ?_⟩
  · constructor
    · intro h
      have hnv : isVlmPost p = false := by
        simpa [Bool.not_eq_true'] using (List.mem_filter.mp h).2
      by_contra hne
      rw [(isVlmPost_iff p).mpr hne] at hnv
      cases hnv
    · intro h
      refine List.mem_filter.mpr ⟨hp, ?_⟩
      have hnv : isVlmPost p = false := by
        cases hv : isVlmPost p
        · rfl
        · exact absurd ((isVlmPost_iff p).mp hv) (by simp [h])
      simp [hnv]
  · constructor
    · intro h
      obtain ⟨hxp, hxv, hns⟩ := mem_immediate_vlm posts p h
      have hmap := mapped_urls_eq posts p hids hp hxv
      refine ⟨(isVlmPost_iff p).mp hxv, ?_⟩
      intro u hu
      exact all_standard_of_not_hns _ hns u (by rw [hmap]; exact hu)
    · rintro ⟨hne, hall⟩
      have hv := (isVlmPost_iff p).mpr hne
      have hpv : p ∈ vlm_posts posts := List.mem_filter.mpr ⟨hp, hv⟩
      have hmap := mapped_urls_eq posts p hids hp hv
      have hns : has_non_standard (mapped_urls posts p.id) = false := by
        simp only [has_non_standard, List.any_eq_false]
        intro u hu
        simp [hall u (by rw [hmap] at hu; exact hu)]
      exact List.mem_filter.mpr ⟨hpv, by simp [hns]⟩
  · constructor
    · intro h
      have h1 := List.mem_filter.mp h
      have hv : isVlmPost p = true := (List.mem_filter.mp h1.1).2
      have hmap := mapped_urls_eq posts p hids hp hv
      obtain ⟨u, hu, hustd⟩ :
          ∃ x ∈ mapped_urls posts p.id, is_standard_format x = false := by
        simpa [has_non_standard, Bool.not_eq_true'] using h1.2
      exact ⟨u, by rw [hmap] at hu; exact hu, hustd⟩
    · rintro ⟨u, hu, hustd⟩
      have hne : extract_image_urls p ≠ [] := List.ne_nil_of_mem hu
      have hv := (isVlmPost_iff p).mpr hne
      have hpv : p ∈ vlm_posts posts := List.mem_filter.mpr ⟨hp, hv⟩
      have hmap := mapped_urls_eq posts p hids hp hv
      have hns : has_non_standard (mapped_urls posts p.id) = true := by
        simp only [has_non_standard, List.any_eq_true]
        exact ⟨u, by rw [hmap]; exact hu, by simp [hustd]⟩
      exact List.mem_filter.mpr ⟨hpv, by simp [hns]⟩
  · intro himm
    obtain ⟨hxp, hxv, hns⟩ := mem_immediate_vlm posts p himm
    have hmap := mapped_urls_eq posts p hids hp hxv
    have hfs : (mapped_urls posts p.id).filter is_standard_format =
        mapped_urls posts p.id :=
      List.filter_eq_self.mpr (fun u hu => all_standard_of_not_hns _ hns u hu)
    have hne := (isVlmPost_iff p).mp hxv
    have hBne : ((extract_image_urls p).map ImgPayload.urlRef).isEmpty = false := by
      cases hmm : extract_image_urls p with
      | nil => exact absurd hmm hne
      | cons a t => simp
    have hfs' : (extract_image_urls p).filter is_standard_format =
        extract_image_urls p := by
      rw [← hmap]; exact hfs
    rw [immediate_vlm_tasks, filter_immediate_vlm]
    refine List.mem_filterMap.mpr ⟨p, himm, ?_⟩
    simp [hmap, hfs', hBne]

theorem c6_classification_witness :
    (([(⟨1, "t", [uJpg]⟩ : Post)].map Post.id).Nodup) ∧
    ((⟨1, "t", [uJpg]⟩ : Post) ∈ [(⟨1, "t", [uJpg]⟩ : Post)]) ∧
    ((⟨1, "t", [uJpg]⟩ : Post) ∈ immediate_vlm_posts [⟨1, "t", [uJpg]⟩] ↔
      extract_image_urls ⟨1, "t", [uJpg]⟩ ≠ [] ∧
      ∀ u ∈ extract_image_urls ⟨1, "t", [uJpg]⟩, is_standard_format u = true) :=
  ⟨by decide, by decide,
    (c6_classification [⟨1, "t", [uJpg]⟩] ⟨1, "t", [uJpg]⟩
      (by decide) (by decide)).2.1⟩

theorem async_ready (conv : Url → Nat → Option String) (w : World) (u : Url)
    (p : String) (h : alistLookup w.cache.cache u = some (some p)) :
    download_and_convert_image_async conv w u = (some p, w) := by
  have hg : w.cache.get_cached_image u = some p := by
    simp [ImageCache.get_cached_image, h]
  simp [download_and_convert_image_async, hg]

theorem async_preserves_ready (conv : Url → Nat → Option String) (w : World)
    (u v : Url) (p : String)
    (h : alistLookup w.cache.cache u = some (some p)) :
    alistLookup (download_and_convert_image_async conv w v).2.cache.cache u =
      some (some p) ∧
    urlCount (download_and_convert_image_async conv w v).2.log u =
      urlCount w.log u := by
  by_cases hv : v = u
  · subst hv
    rw [async_ready conv w v p h]
    exact ⟨h, rfl⟩
  · simp only [download_and_convert_image_async]
    cases hg : w.cache.get_cached_image v with
    | some cached => exact ⟨h, rfl⟩
    | none =>
      by_cases hproc : w.cache.is_processing v = true
      · simp only [hproc, if_true]
        exact ⟨h, trivial⟩
      · simp only [hproc, Bool.false_eq_true, if_false]
        have hvu : ¬ (u = v) := fun hh => hv hh.symm
        constructor
        · simpa [ImageCache.finish_processing, alistLookup_insert, hvu] using h
        · simp [urlCount, hv]

theorem build_mixed_preserves_ready (conv : Url → Nat → Option String)
    (u : Url) (p : String) :
    ∀ (urls : List Url) (w : World),
      alistLookup w.cache.cache u = some (some p) →
      alistLookup (build_mixed_image_data conv w urls).2.cache.cache u =
        some (some p) ∧
      urlCount (build_mixed_image_data conv w urls).2.log u = urlCount w.log u ∧
      (u ∈ urls → is_standard_format u = false →
        ImgPayload.blob p ∈ (build_mixed_image_data conv w urls).1) := by
  intro urls
  induction urls with
  | nil =>
    intro w h
    exact ⟨h, rfl, fun hu _ => absurd hu (List.not_mem_nil u)⟩
  | cons v rest ih =>
    intro w h
    by_cases hs : is_standard_format v = true
    · cases hrec : build_mixed_image_data conv w rest with
      | mk l w' =>
        obtain ⟨i1, i2, i3⟩ := ih w h
        rw [hrec] at i1 i2 i3
        simp only [build_mixed_image_data, hs, if_true, hrec]
        refine ⟨i1, i2, ?_⟩
        intro hu hustd
        rcases List.mem_cons.mp hu with hh | hh
        · subst hh
          exact absurd hs (by simp [hustd])
        · exact List.mem_cons_of_mem _ (i3 hh hustd)
    · rw [Bool.not_eq_true] at hs
      cases hdl : download_and_convert_image_async conv w v with
      | mk r w₁ =>
        have hpre := async_preserves_ready conv w u v p h
        rw [hdl] at hpre
        obtain ⟨j1, j2⟩ := hpre
        cases r with
        | some b =>
          cases hrec : build_mixed_image_data conv w₁ rest with
          | mk l w₂ =>
            obtain ⟨i1, i2, i3⟩ := ih w₁ j1
            rw [hrec] at i1 i2 i3
            simp only [build_mixed_image_data, hs, Bool.false_eq_true, if_false,
              hdl, hrec]
            refine ⟨i1, by rw [i2, j2], ?_⟩
            intro hu hustd
            rcases List.mem_cons.mp hu with hh | hh
            · subst hh
              have ha := async_ready conv w u p h
              rw [hdl] at ha
              have hb : b = p := by
                have := congrArg Prod.fst ha
                simpa using this
              subst hb
              exact List.mem_cons_self _ _
            · exact List.mem_cons_of_mem _ (i3 hh hustd)
        | none =>
          cases hrec : build_mixed_image_data conv w₁ rest with
          | mk l w₂ =>
            obtain ⟨i1, i2, i3⟩ := ih w₁ j1
            rw [hrec] at i1 i2 i3
            simp only [build_mixed_image_data, hs, Bool.false_eq_true, if_false,
              hdl, hrec]
            refine ⟨i1, by rw [i2, j2], ?_⟩
            intro hu hustd
            rcases List.mem_cons.mp hu with hh | hh
            · subst hh
              have ha := async_ready conv w u p h
              rw [hdl] at ha
              exact absurd (congrArg Prod.fst ha) (by simp)
            · exact i3 hh hustd

theorem bg_one_preserves_ready (conv : Url → Nat → Option String) (w : World)
    (u v : Url) (p : String)
    (h : alistLookup w.cache.cache u = some (some p)) :
    alistLookup (background_process_one conv w v).cache.cache u = some (some p) ∧
    urlCount (background_process_one conv w v).log u = urlCount w.log u := by
  by_cases hguard :
      (w.cache.is_processing v || (w.cache.get_cached_image v).isSome) = true
  · simp only [background_process_one, hguard, if_true]
    exact ⟨h, trivial⟩
  · have hv : ¬ (v = u) := by
      intro hh
      subst hh
      have hg : w.cache.get_cached_image v = some p := by
        simp [ImageCache.get_cached_image, h]
      simp [hg] at hguard
    simp only [background_process_one, hguard, Bool.false_eq_true, if_false]
    have hvu : ¬ (u = v) := fun hh => hv hh.symm
    constructor
    · simpa [ImageCache.finish_processing, ImageCache.start_processing,
        alistLookup_insert, hvu] using h
    · simp [urlCount, hv]

theorem bg_preserves_ready (conv : Url → Nat → Option String) (u : Url)
    (p : String) :
    ∀ (urls : List Url) (w : World),
      alistLookup w.cache.cache u = some (some p) →
      alistLookup (start_background_image_processing conv w urls).cache.cache u =
        some (some p) ∧
      urlCount (start_background_image_processing conv w urls).log u =
        urlCount w.log u := by
  intro urls
  induction urls with
  | nil => intro w h; exact ⟨h, rfl⟩
  | cons v rest ih =>
    intro w h
    rw [start_background_image_processing]
    obtain ⟨o1, o2⟩ := bg_one_preserves_ready conv w u v p h
    obtain ⟨q1, q2⟩ := ih (background_process_one conv w v) o1
    exact ⟨q1, by rw [q2, o2]⟩

theorem bg_one_preserves_fresh (conv : Url → Nat → Option String) (w : World)
    (u v : Url) (hvu : v ≠ u)
    (hnone : alistLookup w.cache.cache u = none)
    (hproc : u ∉ w.cache.processing) (hcnt : urlCount w.log u = 0) :
    alistLookup (background_process_one conv w v).cache.cache u = none ∧
    u ∉ (background_process_one conv w v).cache.processing ∧
    urlCount (background_process_one conv w v).log u = 0 := by
  by_cases hguard :
      (w.cache.is_processing v || (w.cache.get_cached_image v).isSome) = true
  · simp only [background_process_one, hguard, if_true]
    exact ⟨hnone, hproc, hcnt⟩
  · simp only [background_process_one, hguard, Bool.false_eq_true, if_false]
    have huv : ¬ (u = v) := fun hh => hvu hh.symm
    refine ⟨?_, ?_, ?_⟩
    · simpa [ImageCache.finish_processing, ImageCache.start_processing,
        alistLookup_insert, huv] using hnone
    · simp only [ImageCache.finish_processing, ImageCache.start_processing]
      intro hmemf
      have hmem := List.mem_of_mem_filter hmemf
      by_cases hvp : v ∈ w.cache.processing
      · rw [if_pos hvp] at hmem
        exact hproc hmem
      · rw [if_neg hvp] at hmem
        rcases List.mem_cons.mp hmem with hh | hh
        · exact huv hh
        · exact hproc hh
    · simp [urlCount, hvu, hcnt]

theorem bg_establish (conv : Url → Nat → Option String) (u : Url) (p : String)
    (hc : conv u 0 = some p) :
    ∀ (urls : List Url) (w : World),
      urls.Nodup → u ∈ urls →
      alistLookup w.cache.cache u = none → u ∉ w.cache.processing →
      urlCount w.log u = 0 →
      alistLookup (start_background_image_processing conv w urls).cache.cache u =
        some (some p) ∧
      urlCount (start_background_image_processing conv w urls).log u = 1 := by
  intro urls
  induction urls with
  | nil => intro w _ hu; exact absurd hu (List.not_mem_nil u)
  | cons v rest ih =>
    intro w hnd hu hnone hproc hcnt
    rw [start_background_image_processing]
    rcases List.mem_cons.mp hu with hh | humem
    · subst hh
      have h1 : w.cache.is_processing u = false := by
        simp [ImageCache.is_processing, hproc]
      have h2 : w.cache.get_cached_image u = none := by
        simp [ImageCache.get_cached_image, hnone]
      have hguard :
          (w.cache.is_processing u || (w.cache.get_cached_image u).isSome) = false := by
        simp [h1, h2]
      have hw' : background_process_one conv w u =
          ⟨(w.cache.start_processing u).finish_processing u (some p),
            u :: w.log⟩ := by
        simp [background_process_one, hguard, hcnt, hc]
      rw [hw']
      have hready : alistLookup
          ((w.cache.start_processing u).finish_processing u (some p)).cache u =
          some (some p) := by
        simp [ImageCache.finish_processing, ImageCache.start_processing,
          alistLookup_insert_self]
      obtain ⟨q1, q2⟩ := bg_preserves_ready conv u p rest
        ⟨(w.cache.start_processing u).finish_processing u (some p), u :: w.log⟩
        hready
      refine ⟨q1, ?_⟩
      rw [q2]
      simp [urlCount, hcnt]
    · have hvu : v ≠ u := fun hvv =>
        (List.nodup_cons.mp hnd).1 (by rw [hvv]; exact humem)
      obtain ⟨f1, f2, f3⟩ :=
        bg_one_preserves_fresh conv w u v hvu hnone hproc hcnt
      exact ih (background_process_one conv w v)
        (List.nodup_cons.mp hnd).2 humem f1 f2 f3

theorem run_delayed_preserves_ready (M : Models)
    (conv : Url → Nat → Option String) (vlmO llmO : Nat → Option String)
    (mapping : List (Nat × List Url)) (u : Url) (p : String)
    (hstd : is_standard_format u = false) :
    ∀ (l : List Post) (w : World),
      alistLookup w.cache.cache u = some (some p) →
      alistLookup (run_delayed_posts M conv vlmO llmO mapping w l).world.cache.cache u =
        some (some p) ∧
      urlCount (run_delayed_posts M conv vlmO llmO mapping w l).world.log u =
        urlCount w.log u ∧
      ∀ q m, (q, m) ∈ (run_delayed_posts M conv vlmO llmO mapping w l).dispatches →
        u ∈ (alistLookup mapping q.id).getD [] → ImgPayload.blob p ∈ m := by
  intro l
  induction l with
  | nil =>
    intro w h
    exact ⟨h, rfl, fun q m hm _ => absurd hm (List.not_mem_nil (q, m))⟩
  | cons q rest ih =>
    intro w h
    rcases hstep : build_mixed_image_data conv w ((alistLookup mapping q.id).getD [])
      with ⟨mixed, w₁⟩
    have hbm := build_mixed_preserves_ready conv u p
      ((alistLookup mapping q.id).getD []) w h
    rw [hstep] at hbm
    obtain ⟨b1, b2, b3⟩ := hbm
    obtain ⟨i1, i2, i3⟩ := ih w₁ b1
    simp only [run_delayed_posts, hstep]
    refine ⟨i1, by rw [i2, b2], ?_⟩
    intro q' m' hm hmem
    rcases List.mem_cons.mp hm with hh | hh
    · have hq : q' = q := congrArg Prod.fst hh
      have hm' : m' = mixed := congrArg Prod.snd hh
      subst hq
      subst hm'
      exact b3 hmem hstd
    · exact i3 q' m' hh hmem

/-- C1 (counterexample): a normalized non-standard URL referenced by two
posts whose conversion fails is converted three times in one run — once by
the background pool and once more per consuming post, because the recorded
failure is indistinguishable from a cache miss — contradicting "invoked at
most once over the whole run". -/
theorem c1_counterexample :
    urlCount (process_unprocessed_posts M0 convNone oracleNone oracleNone
      [⟨1, "t", [uWebp]⟩, ⟨2, "t", [uWebp]⟩]).world.log uWebp = 3 ∧
    ¬ (urlCount (process_unprocessed_posts M0 convNone oracleNone oracleNone
      [⟨1, "t", [uWebp]⟩, ⟨2, "t", [uWebp]⟩]).world.log uWebp ≤ 1) := by
  constructor
  · rfl
  · intro hle
    have : urlCount (process_unprocessed_posts M0 convNone oracleNone oracleNone
        [⟨1, "t", [uWebp]⟩, ⟨2, "t", [uWebp]⟩]).world.log uWebp = 3 := rfl
    omega

/-- C1 (amended): when the background conversion of a shared non-standard
URL succeeds, the conversion runs exactly once over the whole run and every
delayed post referencing it observes the same converted payload; only after
a failed conversion do consumers re-invoke the converter (see the
counterexample). -/
theorem c1_dedup_on_success (M : Models) (conv : Url → Nat → Option String)
    (vlmO llmO : Nat → Option String) (posts : List Post) (u : Url) (p : String)
    (hstd : is_standard_format u = false) (hconv : conv u 0 = some p)
    (hmem : u ∈ non_standard_urls posts) :
    urlCount (process_unprocessed_posts M conv vlmO llmO posts).world.log u = 1 ∧
    ∀ q m, (q, m) ∈ (process_unprocessed_posts M conv vlmO llmO posts).dispatches →
      u ∈ mapped_urls posts q.id → ImgPayload.blob p ∈ m := by
  have hne' : posts.isEmpty = false := by
    cases hq : posts with
    | nil =>
      rw [hq] at hmem
      simp [non_standard_urls, vlm_posts] at hmem
    | cons a t => rfl
  have hnsne : (non_standard_urls posts).isEmpty = false := by
    cases hq : non_standard_urls posts with
    | nil => rw [hq] at hmem; exact absurd hmem (List.not_mem_nil u)
    | cons a t => rfl
  have hnd : (non_standard_urls posts).Nodup := by
    simpa [non_standard_urls] using
      List.nodup_dedup ((vlm_posts posts).flatMap
        (fun p => (mapped_urls posts p.id).filter (fun u => !is_standard_format u)))
  obtain ⟨hready, hcount⟩ := bg_establish conv u p hconv
    (non_standard_urls posts) emptyWorld hnd hmem rfl
    (List.not_mem_nil u) rfl
  simp only [process_unprocessed_posts, hne', Bool.false_eq_true, if_false,
    hnsne]
  by_cases hd : (delayed_posts posts).isEmpty = true
  · simp only [hd, Bool.not_true, Bool.false_and, Bool.false_eq_true, if_false]
    exact ⟨hcount, fun q m hm _ => absurd hm (List.not_mem_nil (q, m))⟩
  · have hd' : (delayed_posts posts).isEmpty = false := by
      cases hq : (delayed_posts posts).isEmpty
      · rfl
      · exact absurd hq hd
    simp only [hd', Bool.not_false, Bool.true_and, if_true]
    obtain ⟨r1, r2, r3⟩ := run_delayed_preserves_ready M conv vlmO llmO
      (post_image_mapping posts) u p hstd (delayed_posts posts)
      (start_background_image_processing conv emptyWorld (non_standard_urls posts))
      hready
    refine ⟨by rw [r2, hcount], ?_⟩
    intro q m hm hmm
    exact r3 q m hm hmm

theorem c1_dedup_on_success_witness :
    is_standard_format uWebp = false ∧
    convB uWebp 0 = some "B64" ∧
    uWebp ∈ non_standard_urls [⟨1, "t", [uWebp]⟩, ⟨2, "t", [uWebp]⟩] ∧
    urlCount (process_unprocessed_posts M0 convB oracleNone oracleNone
      [⟨1, "t", [uWebp]⟩, ⟨2, "t", [uWebp]⟩]).world.log uWebp = 1 :=
  ⟨by decide, rfl, by decide,
    (c1_dedup_on_success M0 convB oracleNone oracleNone
      [⟨1, "t", [uWebp]⟩, ⟨2, "t", [uWebp]⟩] uWebp "B64"
      (by decide) rfl (by decide)).1⟩
